import Mathlib

/-!
Formal model of the `sample` subcommand of xpq (`src/command/sample.rs`):
uniform random sampling of rows from a Parquet file, rendered as a table.

The Rust code is shallowly embedded as follows.

* `sample_indexes(sample, size)` in Rust builds the vector `(0..size)`,
  shuffles it in place with the thread-local RNG, takes the first
  `sample` entries and collects them into a `HashSet`.  The RNG is
  modelled by the shuffle it performs: a function `shuffle` on lists,
  assumed (in each theorem's hypothesis) to permute its argument.
* `metadata_headers` either clones the caller-supplied column list or
  pushes every schema field name in declaration order.
* `run` parses its (already validated) arguments, opens the file,
  obtains the optional metadata, constructs the projected row iterator
  (propagating its error with `?`), and only then matches on the
  metadata; on `Some` it filters the enumerated rows by the sampled
  index set and hands headers plus surviving rows to the table writer,
  on `None` it returns `Ok` having written nothing.  The value returned
  by the model is exactly what reaches the output stream: `none` for
  zero bytes, `some (headers, rows)` for the table handed to
  `TableOutputWriter`.
-/

namespace Xpq

/-- A top-level field of a Parquet schema; the sampling code only ever
reads its name. -/
structure SchemaField where
  name : String
deriving DecidableEq

/-- Embedding of `metadata_headers` (`src/command/sample.rs:47`): with
explicit columns, clone them; otherwise push each schema field's name,
in schema declaration order, onto an initially empty vector. -/
def metadata_headers (schema : List SchemaField) (columns : Option (List String)) :
    List String :=
  match columns with
  | some headers => headers
  | none => schema.foldl (fun headers f => headers ++ [f.name]) []

/-- Embedding of `sample_indexes` (`src/command/sample.rs:67`): build the
vector `(0..size)`, shuffle it (the RNG outcome is the function
`shuffle`), take the first `sample` entries and collect them into a set. -/
def sample_indexes (shuffle : List Nat → List Nat) (sample size : Nat) : Finset Nat :=
  ((shuffle (List.range size)).take sample).toFinset

/-- Embedding of the streaming filter inside `run`
(`src/command/sample.rs:89`):
`rows.enumerate().filter(|t| indexes.contains(&t.0)).map(|r| r.1)`. -/
def filterByIndex {Row : Type} (indexes : Finset Nat) (rows : List Row) : List Row :=
  ((rows.enum).filter (fun t => decide (t.1 ∈ indexes))).map Prod.snd

/-- Model of the `ParquetFile` reader facade consumed by `run`:
`metadata(0)` (carrying the schema when present), `num_rows()`, and
`to_row_fmt_iter`, which yields the projected rows or fails (e.g. on a
projection naming an unknown column). -/
structure ParquetFile (Row : Type) where
  metadataSchema : Option (List SchemaField)
  numRows : Nat
  rowIter : Option (List String) → Except String (List Row)

/-- Embedding of `run` (`src/command/sample.rs:76`), after the CLI frame
has validated the arguments and the file has been opened.  Mirrors the
source order: the row iterator is constructed (and its error propagated)
before the match on the metadata.  The result models the bytes written:
`none` for zero bytes, `some (headers, rows)` for the table written. -/
def run {Row : Type} (parquet : ParquetFile Row) (columns : Option (List String))
    (sample : Nat) (shuffle : List Nat → List Nat) :
    Except String (Option (List String × List Row)) :=
  match parquet.rowIter columns with
  | Except.error e => Except.error e
  | Except.ok rows =>
    match parquet.metadataSchema with
    | some schema =>
      let size := parquet.numRows
      let headers := metadata_headers schema columns
      let indexes := sample_indexes shuffle sample size
      let iter := filterByIndex indexes rows
      Except.ok (some (headers, iter))
    | none => Except.ok none

/-! ### Helper lemmas about `sample_indexes` -/

/-- The shuffled vector is duplicate-free. -/
lemma shuffled_nodup (shuffle : List Nat → List Nat) (size : Nat)
    (h : (shuffle (List.range size)).Perm (List.range size)) :
    (shuffle (List.range size)).Nodup :=
  h.nodup_iff.mpr (List.nodup_range size)

/-- Taking the first `sample` entries of the shuffled vector yields a
duplicate-free list. -/
lemma shuffled_take_nodup (shuffle : List Nat → List Nat) (sample size : Nat)
    (h : (shuffle (List.range size)).Perm (List.range size)) :
    ((shuffle (List.range size)).take sample).Nodup :=
  (shuffled_nodup shuffle size h).sublist (List.take_sublist sample _)

/-- Cardinality of the sampled index set. -/
lemma sample_indexes_card_aux (shuffle : List Nat → List Nat) (sample size : Nat)
    (h : (shuffle (List.range size)).Perm (List.range size)) :
    (sample_indexes shuffle sample size).card = min sample size := by
  unfold sample_indexes
  rw [List.toFinset_card_of_nodup (shuffled_take_nodup shuffle sample size h),
    List.length_take, h.length_eq, List.length_range]

/-- Every sampled index is below the population size. -/
lemma sample_indexes_lt_aux (shuffle : List Nat → List Nat) (sample size : Nat)
    (h : (shuffle (List.range size)).Perm (List.range size)) :
    ∀ i ∈ sample_indexes shuffle sample size, i < size := by
  intro i hi
  rw [sample_indexes, List.mem_toFinset] at hi
  have : i ∈ shuffle (List.range size) := List.take_subset _ _ hi
  exact List.mem_range.mp (h.mem_iff.mp this)

/-- C1 — **Cardinality**: for all `k, n ≥ 0`, whenever the RNG shuffles
the vector `(0..n)` into a permutation of itself,
`|sample_indexes(k, n)| = min(k, n)`. -/
theorem sample_indexes_card (shuffle : List Nat → List Nat) (sample size : Nat)
    (h : (shuffle (List.range size)).Perm (List.range size)) :
    (sample_indexes shuffle sample size).card = min sample size :=
  sample_indexes_card_aux shuffle sample size h

theorem sample_indexes_card_witness :
    (List.reverse (List.range 3)).Perm (List.range 3) ∧
      (sample_indexes List.reverse 2 3).card = min 2 3 :=
  ⟨by decide, sample_indexes_card List.reverse 2 3 (by decide)⟩

/-- C2 — **Range and distinctness**: whenever the RNG shuffles `(0..n)`
into a permutation of itself, every member of `sample_indexes(k, n)` lies
in `[0, n)`, and the collected entries are pairwise distinct. -/
theorem sample_indexes_range_distinct (shuffle : List Nat → List Nat)
    (sample size i : Nat)
    (h : (shuffle (List.range size)).Perm (List.range size))
    (hi : i ∈ sample_indexes shuffle sample size) :
    i < size ∧ ((shuffle (List.range size)).take sample).Nodup :=
  ⟨sample_indexes_lt_aux shuffle sample size h i hi,
    shuffled_take_nodup shuffle sample size h⟩

theorem sample_indexes_range_distinct_witness :
    1 < 3 ∧ ((List.reverse (List.range 3)).take 2).Nodup :=
  sample_indexes_range_distinct List.reverse 2 3 1 (by decide) (by decide)

/-- C4 — when `k ≥ n` and the RNG shuffles `(0..n)` into any permutation
of itself, `sample_indexes(k, n)` is exactly `{0, …, n−1}`. -/
theorem sample_indexes_full (shuffle : List Nat → List Nat) (sample size : Nat)
    (h : (shuffle (List.range size)).Perm (List.range size))
    (hk : size ≤ sample) :
    sample_indexes shuffle sample size = Finset.range size := by
  unfold sample_indexes
  rw [List.take_of_length_le (by rw [h.length_eq, List.length_range]; exact hk)]
  ext x
  rw [List.mem_toFinset, h.mem_iff, List.mem_range, Finset.mem_range]

theorem sample_indexes_full_witness :
    (List.reverse (List.range 2)).Perm (List.range 2) ∧ 2 ≤ 5 ∧
      sample_indexes List.reverse 5 2 = Finset.range 2 :=
  ⟨by decide, by decide, sample_indexes_full List.reverse 5 2 (by decide) (by decide)⟩

/-! ### Helper lemmas about `metadata_headers` -/

lemma foldl_push_names (schema : List SchemaField) (acc : List String) :
    schema.foldl (fun headers f => headers ++ [f.name]) acc
      = acc ++ schema.map SchemaField.name := by
  induction schema generalizing acc with
  | nil => simp
  | cons f fs ih => simp [List.foldl_cons, ih]

/-- C7 — **Header fidelity**: with caller-supplied columns the header
list is that list verbatim; otherwise it is the schema's field names in
declaration order. -/
theorem metadata_headers_fidelity (schema : List SchemaField) (cs : List String) :
    metadata_headers schema (some cs) = cs ∧
      metadata_headers schema none = schema.map SchemaField.name := by
  refine ⟨rfl, ?_⟩
  unfold metadata_headers
  simpa using foldl_push_names schema []

/-! ### Uniformity of the sampler

`Vec::shuffle` performs a Fisher–Yates shuffle: with a uniform RNG every
rearrangement of the vector `(0..n)` is equally likely, i.e. the RNG
outcome is a uniformly distributed permutation `σ` of `Fin n`, and the
shuffled vector has `σ j` at position `j`.  We count, for each
`k`-subset `S` of `[0, n)`, the permutations under which
`sample_indexes` returns `S`, and show the resulting probability is
`1 / C(n, k)` independently of `S`. -/

/-- The vector `(0..n)` after the shuffle whose outcome is `σ`: position
`j` holds `σ j`. -/
def shuffledList (n : Nat) (σ : Equiv.Perm (Fin n)) : List Nat :=
  (List.finRange n).map (fun j => (σ j : Nat))

/-- The action on the sampler's vector of the shuffle with outcome `σ`.
The sampler only ever shuffles `(0..n)`, whose rearrangement under `σ`
is `shuffledList n σ`. -/
def shuffleOf (n : Nat) (σ : Equiv.Perm (Fin n)) : List Nat → List Nat :=
  fun _ => shuffledList n σ

/-- The first `k` slots of the vector, as a set of positions. -/
def firstSlots (n k : Nat) : Finset (Fin n) :=
  ((List.finRange n).take k).toFinset

lemma firstSlots_card (n k : Nat) : (firstSlots n k).card = min k n := by
  unfold firstSlots
  rw [List.toFinset_card_of_nodup
      ((List.nodup_finRange n).sublist (List.take_sublist k _)),
    List.length_take, List.length_finRange]

lemma list_map_toFinset {α β : Type} [DecidableEq α] [DecidableEq β]
    (f : α → β) (l : List α) :
    (l.map f).toFinset = l.toFinset.image f := by
  ext b
  simp [List.mem_toFinset]

/-- What `sample_indexes` returns under RNG outcome `σ`: the values the
shuffle moved into the first `k` slots. -/
lemma sample_indexes_shuffleOf (n k : Nat) (σ : Equiv.Perm (Fin n)) :
    sample_indexes (shuffleOf n σ) k n
      = ((firstSlots n k).image σ).image Fin.val := by
  unfold sample_indexes shuffleOf shuffledList firstSlots
  rw [← List.map_take, list_map_toFinset, Finset.image_image]
  rfl

lemma image_val_inj {n : Nat} {A B : Finset (Fin n)}
    (h : A.image Fin.val = B.image Fin.val) : A = B :=
  Finset.image_injective Fin.val_injective h

lemma attachFin_image_val {n : Nat} (S : Finset Nat) (h : ∀ m ∈ S, m < n) :
    (S.attachFin h).image Fin.val = S := by
  ext m
  simp only [Finset.mem_image]
  constructor
  · rintro ⟨a, ha, rfl⟩
    exact (Finset.mem_attachFin h).mp ha
  · intro hm
    exact ⟨⟨m, h m hm⟩, (Finset.mem_attachFin h).mpr hm, rfl⟩

/-- The symmetric group moves any subset onto any equally sized subset. -/
lemma exists_perm_image_eq {n : Nat} (S T : Finset (Fin n)) (h : S.card = T.card) :
    ∃ τ : Equiv.Perm (Fin n), S.image τ = T := by
  classical
  have e : {x // x ∈ S} ≃ {x // x ∈ T} := Finset.equivOfCardEq h
  refine ⟨e.extendSubtype, Finset.eq_of_subset_of_card_le ?_ ?_⟩
  · intro y hy
    rw [Finset.mem_image] at hy
    obtain ⟨x, hx, rfl⟩ := hy
    exact e.extendSubtype_mem x hx
  · rw [Finset.card_image_of_injective S e.extendSubtype.injective, h]

/-- Any two subsets of the same size are hit by equally many shuffle
outcomes. -/
lemma fiber_card_eq (n k : Nat) (S T : Finset (Fin n)) (hST : S.card = T.card) :
    (Finset.univ.filter (fun σ : Equiv.Perm (Fin n) => (firstSlots n k).image σ = S)).card
      = (Finset.univ.filter (fun σ : Equiv.Perm (Fin n) => (firstSlots n k).image σ = T)).card := by
  classical
  obtain ⟨τ, hτ⟩ := exists_perm_image_eq S T hST
  have key : ∀ (ρ : Equiv.Perm (Fin n)) (υ : Equiv.Perm (Fin n)),
      (firstSlots n k).image (ρ.trans υ) = ((firstSlots n k).image ρ).image υ := by
    intro ρ υ
    rw [Finset.image_image]
    rfl
  refine Finset.card_bij' (fun σ _ => σ.trans τ) (fun σ _ => σ.trans τ.symm) ?_ ?_ ?_ ?_
  · intro σ hσ
    rw [Finset.mem_filter] at hσ
    have h2 : (firstSlots n k).image (σ.trans τ) = T := by
      rw [key, hσ.2, hτ]
    rw [Finset.mem_filter]
    exact ⟨Finset.mem_univ _, h2⟩
  · intro σ hσ
    rw [Finset.mem_filter] at hσ
    have h2 : (firstSlots n k).image (σ.trans τ.symm) = S := by
      rw [key, hσ.2, ← hτ, Finset.image_image, Equiv.symm_comp_self, Finset.image_id]
    rw [Finset.mem_filter]
    exact ⟨Finset.mem_univ _, h2⟩
  · intro σ _
    ext x
    simp
  · intro σ _
    ext x
    simp

/-- Exact count: the shuffle outcomes sending the sample to a fixed
`k`-subset number `n! / C(n, k)`. -/
lemma fiber_mul_choose (n k : Nat) (hk : k ≤ n) (S : Finset (Fin n)) (hS : S.card = k) :
    (Finset.univ.filter (fun σ : Equiv.Perm (Fin n) => (firstSlots n k).image σ = S)).card
      * n.choose k = n.factorial := by
  classical
  have hcardF : ∀ σ : Equiv.Perm (Fin n), ((firstSlots n k).image σ).card = k := by
    intro σ
    rw [Finset.card_image_of_injective _ σ.injective, firstSlots_card,
      Nat.min_eq_left hk]
  have hpartition :
      (Finset.univ : Finset (Equiv.Perm (Fin n))).card
        = ∑ T ∈ Finset.powersetCard k (Finset.univ : Finset (Fin n)),
            (Finset.univ.filter
              (fun σ : Equiv.Perm (Fin n) => (firstSlots n k).image σ = T)).card := by
    apply Finset.card_eq_sum_card_fiberwise
    intro σ _
    rw [Finset.mem_powersetCard]
    exact ⟨Finset.subset_univ _, hcardF σ⟩
  have hconst : ∀ T ∈ Finset.powersetCard k (Finset.univ : Finset (Fin n)),
      (Finset.univ.filter
          (fun σ : Equiv.Perm (Fin n) => (firstSlots n k).image σ = T)).card
        = (Finset.univ.filter
            (fun σ : Equiv.Perm (Fin n) => (firstSlots n k).image σ = S)).card := by
    intro T hT
    rw [Finset.mem_powersetCard] at hT
    exact fiber_card_eq n k T S (hT.2.trans hS.symm)
  have htotal := hpartition
  rw [Finset.sum_congr rfl hconst, Finset.sum_const, smul_eq_mul,
    Finset.card_powersetCard] at htotal
  simp only [Finset.card_univ, Fintype.card_perm, Fintype.card_fin] at htotal
  rw [Nat.mul_comm]
  exact htotal.symm

/-- C3 — **Uniformity**: for `0 ≤ k < n`, with the Fisher–Yates shuffle
driven by a uniformly distributed permutation of `(0..n)`, every
`k`-element subset `S` of `[0, n)` is returned by `sample_indexes(k, n)`
with probability exactly `1 / C(n, k)`. -/
theorem sample_indexes_uniform (n k : Nat) (hk : k < n) (S : Finset Nat)
    (hS : S ⊆ Finset.range n) (hcard : S.card = k) :
    ((Finset.univ.filter (fun σ : Equiv.Perm (Fin n) =>
          sample_indexes (shuffleOf n σ) k n = S)).card : ℚ)
        / (Fintype.card (Equiv.Perm (Fin n)) : ℚ)
      = 1 / (n.choose k : ℚ) := by
  classical
  have hlt : ∀ m ∈ S, m < n := fun m hm => Finset.mem_range.mp (hS hm)
  have hS'card : (S.attachFin hlt).card = k := by
    rw [Finset.card_attachFin, hcard]
  have hevent : ∀ σ : Equiv.Perm (Fin n),
      sample_indexes (shuffleOf n σ) k n = S
        ↔ (firstSlots n k).image σ = S.attachFin hlt := by
    intro σ
    rw [sample_indexes_shuffleOf]
    constructor
    · intro h
      apply image_val_inj
      rw [attachFin_image_val, h]
    · intro h
      rw [h, attachFin_image_val]
  have hfilter :
      Finset.univ.filter (fun σ : Equiv.Perm (Fin n) =>
          sample_indexes (shuffleOf n σ) k n = S)
        = Finset.univ.filter (fun σ : Equiv.Perm (Fin n) =>
            (firstSlots n k).image σ = S.attachFin hlt) :=
    Finset.filter_congr (fun σ _ => hevent σ)
  rw [hfilter]
  have hmain := fiber_mul_choose n k (Nat.le_of_lt hk) (S.attachFin hlt) hS'card
  have hPerm : Fintype.card (Equiv.Perm (Fin n)) = n.factorial := by
    rw [Fintype.card_perm, Fintype.card_fin]
  rw [hPerm]
  have hfact : (n.factorial : ℚ) ≠ 0 := by
    exact_mod_cast Nat.factorial_ne_zero n
  have hchoose : ((n.choose k : Nat) : ℚ) ≠ 0 := by
    exact_mod_cast Nat.pos_iff_ne_zero.mp (Nat.choose_pos (Nat.le_of_lt hk))
  rw [div_eq_div_iff hfact hchoose, one_mul]
  exact_mod_cast hmain

theorem sample_indexes_uniform_witness :
    ((Finset.univ.filter (fun σ : Equiv.Perm (Fin 2) =>
          sample_indexes (shuffleOf 2 σ) 1 2 = {0})).card : ℚ)
        / (Fintype.card (Equiv.Perm (Fin 2)) : ℚ)
      = 1 / ((2).choose 1 : ℚ) :=
  sample_indexes_uniform 2 1 (by decide) {0} (by decide) (by decide)

/-! ### Helper lemmas about the streaming filter -/

lemma enumFrom_filter_length {Row : Type} (s : Finset Nat) (rows : List Row) :
    ∀ i : Nat, ((rows.enumFrom i).filter (fun t => decide (t.1 ∈ s))).length
      = ((List.range' i rows.length).filter (fun j => decide (j ∈ s))).length := by
  induction rows with
  | nil => intro i; rfl
  | cons a l ih =>
    intro i
    rw [List.enumFrom_cons, List.length_cons, List.range'_succ]
    by_cases h : i ∈ s
    · simp [List.filter_cons, h, ih]
    · simp [List.filter_cons, h, ih]

lemma range_filter_toFinset (s : Finset Nat) (n : Nat) (hsub : ∀ i ∈ s, i < n) :
    ((List.range n).filter (fun j => decide (j ∈ s))).toFinset = s := by
  ext x
  simp only [List.mem_toFinset, List.mem_filter, List.mem_range, decide_eq_true_eq]
  exact ⟨fun h => h.2, fun h => ⟨hsub x h, h⟩⟩

/-- The streaming filter keeps exactly one row per sampled index, as long
as every sampled index is a valid row ordinal. -/
lemma filterByIndex_length {Row : Type} (s : Finset Nat) (rows : List Row)
    (hsub : ∀ i ∈ s, i < rows.length) :
    (filterByIndex s rows).length = s.card := by
  unfold filterByIndex
  rw [List.length_map, List.enum, enumFrom_filter_length s rows 0, ← List.range_eq_range']
  have hnodup : ((List.range rows.length).filter (fun j => decide (j ∈ s))).Nodup :=
    (List.nodup_range _).filter _
  rw [← List.toFinset_card_of_nodup hnodup, range_filter_toFinset s rows.length hsub]

/-- C5 — **Pipeline cardinality**: when metadata is present, the row
iterator succeeds and yields exactly `num_rows` rows, and the RNG
shuffles `(0..num_rows)` into a permutation of itself, `run` writes the
header plus exactly `min(requested_sample, num_rows)` data rows. -/
theorem run_pipeline_cardinality {Row : Type} (parquet : ParquetFile Row)
    (columns : Option (List String)) (sample : Nat) (shuffle : List Nat → List Nat)
    (schema : List SchemaField) (rows : List Row)
    (hmeta : parquet.metadataSchema = some schema)
    (hrows : parquet.rowIter columns = Except.ok rows)
    (hlen : rows.length = parquet.numRows)
    (h : (shuffle (List.range parquet.numRows)).Perm (List.range parquet.numRows)) :
    run parquet columns sample shuffle
        = Except.ok (some (metadata_headers schema columns,
            filterByIndex (sample_indexes shuffle sample parquet.numRows) rows))
      ∧ (filterByIndex (sample_indexes shuffle sample parquet.numRows) rows).length
        = min sample parquet.numRows := by
  constructor
  · unfold run
    rw [hrows, hmeta]
  · rw [filterByIndex_length _ _
        (fun i hi => hlen ▸ sample_indexes_lt_aux shuffle sample _ h i hi),
      sample_indexes_card_aux shuffle sample _ h]

/-- Concrete two-row file for exercising the pipeline. -/
def twoRowFile : ParquetFile String :=
  ⟨some [⟨"a"⟩], 2, fun _ => Except.ok ["x", "y"]⟩

theorem run_pipeline_cardinality_witness :
    run twoRowFile none 1 List.reverse
        = Except.ok (some (metadata_headers [⟨"a"⟩] none,
            filterByIndex (sample_indexes List.reverse 1 twoRowFile.numRows) ["x", "y"]))
      ∧ (filterByIndex (sample_indexes List.reverse 1 twoRowFile.numRows) ["x", "y"]).length
        = min 1 twoRowFile.numRows :=
  run_pipeline_cardinality twoRowFile none 1 List.reverse [⟨"a"⟩] ["x", "y"]
    rfl rfl rfl (by decide)

/-- C6 — **Streaming filter**: the filtered stream contains a pair
`(i, r)` exactly when ordinal `i` is sampled and `r` is the `i`-th row;
the surviving ordinals are strictly ascending; the surviving rows form a
subsequence of the input in original order; and the result depends on
the index set only through membership, not on any traversal order of
it (any list enumerating the same members filters identically). -/
theorem streaming_filter_spec {Row : Type} (s : Finset Nat) (rows : List Row)
    (lst : List Nat) (i : Nat) (r : Row)
    (hl : lst.toFinset = s) :
    ((i, r) ∈ (rows.enum).filter (fun t => decide (t.1 ∈ s))
        ↔ i ∈ s ∧ rows[i]? = some r)
      ∧ List.Sorted (· < ·)
          (((rows.enum).filter (fun t => decide (t.1 ∈ s))).map Prod.fst)
      ∧ (filterByIndex s rows).Sublist rows
      ∧ ((rows.enum).filter (fun t => decide (t.1 ∈ lst))).map Prod.snd
          = filterByIndex s rows := by
  refine ⟨?_, ?_, ?_, ?_⟩
  · rw [List.mem_filter, List.mk_mem_enum_iff_getElem?]
    simp [and_comm]
  · have hpair : (rows.enum).Pairwise (fun a b => a.1 < b.1) := by
      have hr := List.pairwise_lt_range rows.length
      rw [← List.enum_map_fst rows, List.pairwise_map] at hr
      exact hr
    rw [List.Sorted, List.pairwise_map]
    exact hpair.sublist (List.filter_sublist _)
  · have hsub : ((rows.enum).filter (fun t => decide (t.1 ∈ s))).Sublist rows.enum :=
      List.filter_sublist _
    have hmap := hsub.map Prod.snd
    rwa [List.enum_map_snd] at hmap
  · unfold filterByIndex
    congr 1
    apply List.filter_congr
    intro t _
    simp [← hl, List.mem_toFinset]

theorem streaming_filter_spec_witness :
    (((2 : Nat), "c")
          ∈ List.filter (fun t => decide (t.1 ∈ ({0, 2} : Finset Nat)))
              (List.enum ["a", "b", "c"])
        ↔ (2 : Nat) ∈ ({0, 2} : Finset Nat) ∧ ["a", "b", "c"][(2 : Nat)]? = some "c")
      ∧ List.Sorted (· < ·)
          ((List.filter (fun t => decide (t.1 ∈ ({0, 2} : Finset Nat)))
              (List.enum ["a", "b", "c"])).map Prod.fst)
      ∧ (filterByIndex ({0, 2} : Finset Nat) ["a", "b", "c"]).Sublist ["a", "b", "c"]
      ∧ (List.filter (fun t => decide (t.1 ∈ ([2, 0] : List Nat)))
              (List.enum ["a", "b", "c"])).map Prod.snd
          = filterByIndex ({0, 2} : Finset Nat) ["a", "b", "c"] :=
  streaming_filter_spec ({0, 2} : Finset Nat) ["a", "b", "c"] [2, 0] 2 "c" (by decide)

/-- C8 counterexample input: metadata absent, while the projected row
iterator rejects the requested columns (the spec's §4.1 contract allows
`row_iter` to fail on unknown columns).  On it, `run` propagates the
error instead of returning `Ok`. -/
def noMetaBadProjectionFile : ParquetFile String :=
  ⟨none, 0, fun _ => Except.error "unknown column"⟩

/-- C8, as stated, is false: with metadata absent but a failing row
iterator, `run` returns an error, not `Ok` with zero bytes. -/
theorem run_none_metadata_not_always_ok :
    run noMetaBadProjectionFile (some ["nope"]) 100 id
        = Except.error "unknown column"
      ∧ run noMetaBadProjectionFile (some ["nope"]) 100 id ≠ Except.ok none := by
  constructor
  · rfl
  · intro h
    simp [run, noMetaBadProjectionFile] at h

/-- C8 (amended) — when metadata is absent and row-iterator construction
succeeds, `run` returns `Ok` having written zero bytes. -/
theorem run_none_metadata_ok {Row : Type} (parquet : ParquetFile Row)
    (columns : Option (List String)) (sample : Nat) (shuffle : List Nat → List Nat)
    (rows : List Row)
    (hmeta : parquet.metadataSchema = none)
    (hrows : parquet.rowIter columns = Except.ok rows) :
    run parquet columns sample shuffle = Except.ok none := by
  unfold run
  rw [hrows, hmeta]

/-- Concrete metadata-free file whose row iterator succeeds. -/
def noMetaOkFile : ParquetFile String :=
  ⟨none, 0, fun _ => Except.ok []⟩

theorem run_none_metadata_ok_witness :
    run noMetaOkFile none 100 id = Except.ok none :=
  run_none_metadata_ok noMetaOkFile none 100 id [] rfl rfl

/-- C9 — a projection naming a field absent from the schema makes the
row-iterator constructor fail (spec §4.1 contract), and `run` propagates
that error, writing nothing. -/
theorem run_propagates_projection_error {Row : Type} (parquet : ParquetFile Row)
    (cs : List String) (sample : Nat) (shuffle : List Nat → List Nat) (e : String)
    (he : parquet.rowIter (some cs) = Except.error e) :
    run parquet (some cs) sample shuffle = Except.error e := by
  unfold run
  rw [he]

/-- Concrete file rejecting one particular projection. -/
def rejectingFile : ParquetFile String :=
  ⟨some [⟨"a"⟩], 1,
    fun c => if c = some ["does_not_exist"]
      then Except.error "column not found"
      else Except.ok ["x"]⟩

theorem run_propagates_projection_error_witness :
    run rejectingFile (some ["does_not_exist"]) 100 id
      = Except.error "column not found" :=
  run_propagates_projection_error rejectingFile ["does_not_exist"] 100 id
    "column not found" rfl

/-- C10 — `run` constructs the projected row iterator before inspecting
metadata: a row-iterator error is returned even when metadata is absent,
so the empty-metadata `Ok` path is reached only when row-iterator
construction succeeded. -/
theorem run_row_iter_precedes_metadata {Row : Type} (parquet : ParquetFile Row)
    (columns : Option (List String)) (sample : Nat) (shuffle : List Nat → List Nat)
    (e : String)
    (_hmeta : parquet.metadataSchema = none)
    (he : parquet.rowIter columns = Except.error e) :
    run parquet columns sample shuffle = Except.error e
      ∧ run parquet columns sample shuffle ≠ Except.ok none := by
  have hrun : run parquet columns sample shuffle = Except.error e := by
    unfold run
    rw [he]
  exact ⟨hrun, by rw [hrun]; intro h; exact Except.noConfusion h⟩

/-- Concrete metadata-free file whose row iterator always fails. -/
def noMetaAlwaysFailingFile : ParquetFile String :=
  ⟨none, 3, fun _ => Except.error "bad projection"⟩

theorem run_row_iter_precedes_metadata_witness :
    run noMetaAlwaysFailingFile (some ["z"]) 7 id = Except.error "bad projection"
      ∧ run noMetaAlwaysFailingFile (some ["z"]) 7 id ≠ Except.ok none :=
  run_row_iter_precedes_metadata noMetaAlwaysFailingFile (some ["z"]) 7 id
    "bad projection" rfl rfl

end Xpq
